import Mathlib

/-!
Shallow embedding of gavinmcnair/pictureprocess (Go) for specification checking.

Namespaces mirror the Go packages:
* `DateUtil`  embeds `pkg/dateutil/date_parser.go`
* `ImageDup`  embeds `pkg/imagedup/deduplicator.go`

External effects (filesystem stat, EXIF decoding, image decoding, byte copies,
directory creation, ledger file opening) are modelled by oracle functions
gathered in a `World` structure; all control flow around them is translated
from the Go source.  The file is organised as definitions first, then the
theorems.
-/

set_option maxRecDepth 8000

/-- Oracles for the external effects the program performs.
Each field models one black-box call; `none`/`false` means that call fails. -/
structure World where
  /-- `extractExifDate`: open + `exif.Decode` + `DateTime()`, already formatted
  `"2006-01-02"`; `some d` means the embedded metadata yields a parseable
  timestamp formatting to `d`. -/
  exifDate : String → Option String
  /-- `os.Stat(path).ModTime().Format("2006-01-02")`; `none` = stat error. -/
  modTime : String → Option String
  /-- `os.Stat(path).Size()`; `none` = stat error. -/
  statSize : String → Option Int
  /-- image chain `os.Open` + `image.DecodeConfig` + `imaging.Decode` +
  `goimagehash.AverageHash(...).GetHash()`; `none` = failure at any stage. -/
  imageHash : String → Option Nat
  /-- `os.MkdirAll` success, per directory path. -/
  mkdirOk : String → Bool
  /-- `filepath.Rel(srcDir, path)` result; `none` = error. -/
  relPath : String → Option String
  /-- `copyFile` success, keyed by the destination file path. -/
  copyOk : String → Bool
  /-- `os.OpenFile` success for a directory's `index.json`. -/
  ledgerOpenOk : String → Bool

namespace DateUtil

/-- ASCII digit test (`\d` of Go's regexp is `[0-9]`). -/
def isDigit (c : Char) : Bool := '0' ≤ c && c ≤ '9'

/-- Numeric value of a digit character. -/
def digVal (c : Char) : Nat := c.toNat - 48

/-- The character for a decimal digit. -/
def digitChar (n : Nat) : Char := Char.ofNat (48 + n)

/-- Zero-padded fixed-width decimal rendering, most significant digit first. -/
def padNum : Nat → Nat → List Char
  | 0, _ => []
  | k + 1, n => digitChar (n / 10 ^ k) :: padNum k (n % 10 ^ k)

/-- Read exactly `k` decimal digits into an accumulator
(the fixed-width number fields of Go's `time.Parse`). -/
def readDigits : Nat → Nat → List Char → Option (Nat × List Char)
  | 0, acc, cs => some (acc, cs)
  | _ + 1, _, [] => none
  | k + 1, acc, c :: cs => if isDigit c then readDigits k (acc * 10 + digVal c) cs else none

/-- Consume one expected literal character. -/
def consume (ch : Char) : List Char → Option (List Char)
  | [] => none
  | c :: cs => if c = ch then some cs else none

/-- A calendar date as parsed by `time.Parse`. -/
structure Date where
  y : Nat
  m : Nat
  d : Nat
deriving DecidableEq, Repr

/-- Go `time.isLeap`. -/
def isLeap (y : Nat) : Bool := y % 4 == 0 && (y % 100 != 0 || y % 400 == 0)

/-- Go `time.daysIn(m, year)`. -/
def daysIn (m y : Nat) : Nat :=
  if m = 2 then (if isLeap y then 29 else 28)
  else if m = 4 ∨ m = 6 ∨ m = 9 ∨ m = 11 then 30
  else 31

/-- The range validation Go's `time.Parse` applies after reading the fields:
month and day-of-month must be in range, otherwise a `ParseError`. -/
def mkDate (y m d : Nat) : Option Date :=
  if 1 ≤ m ∧ m ≤ 12 ∧ 1 ≤ d ∧ d ≤ daysIn m y then some ⟨y, m, d⟩ else none

/-- `time.Parse("2006-01-02", value)`. -/
def parseYMDdash (cs : List Char) : Option Date := do
  let (y, r1) ← readDigits 4 0 cs
  let r2 ← consume '-' r1
  let (m, r3) ← readDigits 2 0 r2
  let r4 ← consume '-' r3
  let (d, r5) ← readDigits 2 0 r4
  if r5 = [] then mkDate y m d else none

/-- `time.Parse("02-01-2006", value)`. -/
def parseDMYdash (cs : List Char) : Option Date := do
  let (d, r1) ← readDigits 2 0 cs
  let r2 ← consume '-' r1
  let (m, r3) ← readDigits 2 0 r2
  let r4 ← consume '-' r3
  let (y, r5) ← readDigits 4 0 r4
  if r5 = [] then mkDate y m d else none

/-- `time.Parse("2006/01/02", value)`. -/
def parseYMDslash (cs : List Char) : Option Date := do
  let (y, r1) ← readDigits 4 0 cs
  let r2 ← consume '/' r1
  let (m, r3) ← readDigits 2 0 r2
  let r4 ← consume '/' r3
  let (d, r5) ← readDigits 2 0 r4
  if r5 = [] then mkDate y m d else none

/-- `time.Parse("02/01/2006", value)`. -/
def parseDMYslash (cs : List Char) : Option Date := do
  let (d, r1) ← readDigits 2 0 cs
  let r2 ← consume '/' r1
  let (m, r3) ← readDigits 2 0 r2
  let r4 ← consume '/' r3
  let (y, r5) ← readDigits 4 0 r4
  if r5 = [] then mkDate y m d else none

/-- `time.Parse("20060102", value)`. -/
def parseYMD8 (cs : List Char) : Option Date := do
  let (y, r1) ← readDigits 4 0 cs
  let (m, r2) ← readDigits 2 0 r1
  let (d, r3) ← readDigits 2 0 r2
  if r3 = [] then mkDate y m d else none

/-- `time.Parse("060102", value)`; a two-digit year `yy` becomes `1900+yy`
when `yy ≥ 69` and `2000+yy` otherwise, as in Go's `time` package. -/
def parseYMD6 (cs : List Char) : Option Date := do
  let (yy, r1) ← readDigits 2 0 cs
  let (m, r2) ← readDigits 2 0 r1
  let (d, r3) ← readDigits 2 0 r2
  let y := if 69 ≤ yy then 1900 + yy else 2000 + yy
  if r3 = [] then mkDate y m d else none

/-- `dateLayouts` (`date_parser.go` lines 13-16), as the corresponding
`time.Parse` functions, in the source order. -/
def dateLayouts : List (List Char → Option Date) :=
  [parseYMDdash, parseDMYdash, parseYMDslash, parseDMYslash, parseYMD8, parseYMD6]

/-- The layout loop of `extractDateFromFilename`: first layout that parses
the matched substring wins. -/
def firstParse : List (List Char → Option Date) → List Char → Option Date
  | [], _ => none
  | p :: ps, cs =>
    match p cs with
    | some t => some t
    | none => firstParse ps cs

/-- `t.Format("2006-01-02")`. -/
def formatDate (t : Date) : String := ⟨padNum 4 t.y ++ '-' :: padNum 2 t.m ++ '-' :: padNum 2 t.d⟩

/-- Take exactly `k` digit characters, returning them and the rest. -/
def takeDigits : Nat → List Char → Option (List Char × List Char)
  | 0, cs => some ([], cs)
  | _ + 1, [] => none
  | k + 1, c :: cs =>
    if isDigit c then (takeDigits k cs).map (fun p => (c :: p.1, p.2)) else none

/-- Regex alternative `\d{4}-\d{2}-\d{2}` (returns the matched text). -/
def matchAlt1 (cs : List Char) : Option (List Char) := do
  let (a, r1) ← takeDigits 4 cs
  let r2 ← consume '-' r1
  let (b, r3) ← takeDigits 2 r2
  let r4 ← consume '-' r3
  let (c, _) ← takeDigits 2 r4
  some (a ++ '-' :: b ++ '-' :: c)

/-- Regex alternative `\d{2}/\d{2}/\d{4}`. -/
def matchAlt2 (cs : List Char) : Option (List Char) := do
  let (a, r1) ← takeDigits 2 cs
  let r2 ← consume '/' r1
  let (b, r3) ← takeDigits 2 r2
  let r4 ← consume '/' r3
  let (c, _) ← takeDigits 4 r4
  some (a ++ '/' :: b ++ '/' :: c)

/-- Regex alternative `\d{8}`. -/
def matchAlt3 (cs : List Char) : Option (List Char) := (takeDigits 8 cs).map Prod.fst

/-- Regex alternative `\d{6}`. -/
def matchAlt4 (cs : List Char) : Option (List Char) := (takeDigits 6 cs).map Prod.fst

/-- One anchor position of the regex
`(\d{4}-\d{2}-\d{2}|\d{2}/\d{2}/\d{4}|\d{8}|\d{6})`:
Go's regexp engine uses leftmost-first (Perl) semantics, so at a given
position the alternatives are tried in the listed order. -/
def matchHere (cs : List Char) : Option (List Char) :=
  match matchAlt1 cs with
  | some m => some m
  | none =>
    match matchAlt2 cs with
    | some m => some m
    | none =>
      match matchAlt3 cs with
      | some m => some m
      | none => matchAlt4 cs

/-- `re.FindStringSubmatch`: the match starting at the leftmost possible
position (scanning positions left to right). -/
def findFirst : List Char → Option (List Char)
  | [] => none
  | c :: cs =>
    match matchHere (c :: cs) with
    | some m => some m
    | none => findFirst cs

/-- `extractDateFromFilename` (`date_parser.go` lines 56-69): find the first
date-shaped substring, then return the first layout's successful parse,
formatted back to ISO; error (`none`) when nothing matches or no layout
parses. -/
def extractDateFromFilename (filename : String) : Option String :=
  match findFirst filename.data with
  | none => none
  | some m => (firstParse dateLayouts m).map formatDate

/-- `extractExifDate` (`date_parser.go` lines 35-53): pure I/O, oracle. -/
def extractExifDate (w : World) (filePath : String) : Option String := w.exifDate filePath

/-- `extractFileModTime` (`date_parser.go` lines 72-79): stat + format. -/
def extractFileModTime (w : World) (filePath : String) : Option String := w.modTime filePath

/-- `ExtractDate` (`date_parser.go` lines 19-32): EXIF date first, then
filename pattern, then the file's modification time.  In Go every error path
carries the zero string, so an `Option` return loses nothing. -/
def ExtractDate (w : World) (filePath filename : String) : Option String :=
  match extractExifDate w filePath with
  | some date => some date
  | none =>
    match extractDateFromFilename filename with
    | some date => some date
    | none => extractFileModTime w filePath

/-- Reference rendering of an ISO date `YYYY-MM-DD` as characters. -/
def isoChars (y m d : Nat) : List Char :=
  padNum 4 y ++ '-' :: padNum 2 m ++ '-' :: padNum 2 d

/-- Reference rendering of an ISO date as a string. -/
def isoString (y m d : Nat) : String := ⟨isoChars y m d⟩

/-- Reference rendering of a `DD/MM/YYYY` date. -/
def dmySlashChars (d m y : Nat) : List Char :=
  padNum 2 d ++ '/' :: padNum 2 m ++ '/' :: padNum 4 y

/-- Reference rendering of a `YYYYMMDD` date. -/
def ymd8Chars (y m d : Nat) : List Char := padNum 4 y ++ padNum 2 m ++ padNum 2 d

/-- Reference rendering of a `YYMMDD` date. -/
def ymd6Chars (yy m d : Nat) : List Char := padNum 2 yy ++ padNum 2 m ++ padNum 2 d

/-- Go's two-digit-year completion. -/
def yearOf2 (yy : Nat) : Nat := if 69 ≤ yy then 1900 + yy else 2000 + yy

end DateUtil

namespace ImageDup

/-- The record a worker pushes on the result channel
(Go struct `imageInfo` in `pkg/imagedup/deduplicator.go`):
a 64-bit hash (as `Nat`), the source path and the resolved ISO date. -/
structure ImageInfo where
  hash : Nat
  filename : String
  isoDate : String
deriving DecidableEq, Repr

/-- Association-list model of a Go map read (`v, ok := m[k]`). -/
def lookupA [DecidableEq κ] : List (κ × α) → κ → Option α
  | [], _ => none
  | (k, v) :: rest, h => if k = h then some v else lookupA rest h

/-- Association-list model of a Go map write (`m[k] = v`):
update in place when the key exists, append otherwise. -/
def setA [DecidableEq κ] : List (κ × α) → κ → α → List (κ × α)
  | [], h, r => [(h, r)]
  | (k, v) :: rest, h, r => if k = h then (k, r) :: rest else (k, v) :: setA rest h r

/-- One iteration of the loop body of `filterUniqueFiles`
(`deduplicator.go` lines 335-342).  State: the `unique` map and the
`hashSizes` map; `sz` is the size returned by the loop's `os.Stat`
(the Go code ignores the `Stat` error, so the model takes a total oracle). -/
def fufStep (sz : String → Int) :
    List (Nat × ImageInfo) × List (Nat × Int) → ImageInfo →
    List (Nat × ImageInfo) × List (Nat × Int) :=
  fun st fileInfo =>
    let fileSize := sz fileInfo.filename
    if lookupA st.1 fileInfo.hash = none ∨ (lookupA st.2 fileInfo.hash).getD 0 < fileSize then
      (setA st.1 fileInfo.hash fileInfo, setA st.2 fileInfo.hash fileSize)
    else st

/-- `filterUniqueFiles` (`deduplicator.go` lines 330-345): drains the result
channel (modelled as the list of records in arrival order) and retains, per
hash, only the record backed by the largest file. -/
def filterUniqueFiles (sz : String → Int) (files : List ImageInfo) : List (Nat × ImageInfo) :=
  (files.foldl (fufStep sz) ([], [])).1

/-- Reference fold describing what the record kept for one hash is:
keep the accumulator unless the incoming record is strictly larger. -/
def pickAcc (sz : String → Int) : Option ImageInfo → List ImageInfo → Option ImageInfo
  | acc, [] => acc
  | none, x :: rest => pickAcc sz (some x) rest
  | some a, x :: rest => pickAcc sz (some (if sz a.filename < sz x.filename then x else a)) rest

/-- Invariant tying the `unique` map and the `hashSizes` map together:
the recorded size for a hash is the size of the record kept for that hash. -/
def FufInv (sz : String → Int) (u : List (Nat × ImageInfo)) (s : List (Nat × Int)) : Prop :=
  ∀ h, (lookupA u h).map (fun r => sz r.filename) = lookupA s h

/-- `filepath.Ext`, scanning the path backwards: the suffix starting at the
final dot of the final path element (empty when there is no dot). -/
def goExtAux : List Char → List Char → List Char
  | [], _ => []
  | c :: rest, acc =>
    if c = '/' then []
    else if c = '.' then c :: acc
    else goExtAux rest (c :: acc)

/-- `filepath.Ext(path)`. -/
def goExt (s : String) : String := ⟨goExtAux s.data.reverse []⟩

/-- `strings.ToLower`, restricted to ASCII (the only case the extension
tables can match). -/
def toLowerAscii (s : String) : String :=
  ⟨s.data.map (fun c => if 'A' ≤ c ∧ c ≤ 'Z' then Char.ofNat (c.toNat + 32) else c)⟩

/-- `filepath.Base(path)`: strip trailing slashes, keep the last element. -/
def goBase (s : String) : String :=
  if s = "" then "." else
  let t := (s.data.reverse.dropWhile (fun c => c = '/')).reverse
  if t = [] then "/" else ⟨(t.reverse.takeWhile (fun c => c ≠ '/')).reverse⟩

/-- `SupportedImageFormats` (`deduplicator.go` lines 21-25). -/
def SupportedImageFormats : List String := [".jpg", ".jpeg", ".png"]

/-- `SupportedRawFormats` (`deduplicator.go` lines 28-33). -/
def SupportedRawFormats : List String :=
  [".nef", ".cr2", ".cr3", ".arw", ".rw2", ".orf", ".raf",
   ".pef", ".dng", ".raw", ".kdc", ".sr2", ".mos", ".mrw"]

/-- `SupportedVideoFormats` (`deduplicator.go` lines 35-40). -/
def SupportedVideoFormats : List String := [".avi", ".mp4", ".mkv", ".mov"]

/-- Media classes, as decided by the worker's if-chain. -/
inductive MediaClass
  | image
  | raw
  | video
  | unsupported
deriving DecidableEq, BEq, Repr

/-- The classification chain used at dispatch (`deduplicator.go` lines 83-95)
and again for the copied counters (lines 149-155): lowercased extension
against the three tables, in that order. -/
def classify (file : String) : MediaClass :=
  let ext := toLowerAscii (goExt file)
  if SupportedImageFormats.contains ext then .image
  else if SupportedRawFormats.contains ext then .raw
  else if SupportedVideoFormats.contains ext then .video
  else .unsupported

/-- Go's `uint64(fileSize)` conversion from `int64`: two's-complement
reinterpretation, i.e. reduction mod 2^64. -/
def u64ofInt (n : Int) : Nat := (n % (2 : Int) ^ 64).toNat

/-- `processImageFile` (`deduplicator.go` lines 221-262): open, validate,
decode and hash (the `imageHash` oracle), then resolve the date; any failure
skips the file (no record). -/
def processImageFile (w : World) (filePath : String) : Option ImageInfo :=
  match w.imageHash filePath with
  | none => none
  | some h =>
    match DateUtil.ExtractDate w filePath (goBase filePath) with
    | none => none
    | some date => some ⟨h, filePath, date⟩

/-- `extractFileCreationDate` (`deduplicator.go` lines 319-328):
stat + `ModTime().Format("2006-01-02")`; the same stat as
`dateutil.extractFileModTime`, hence the same oracle. -/
def extractFileCreationDate (w : World) (filePath : String) : Option String :=
  w.modTime filePath

/-- `processRawFile` (`deduplicator.go` lines 265-289): the hash is the byte
size converted to `uint64`; on `ExtractDate` failure the code retries the
modification time and, when that also fails, falls through with `date` still
holding `ExtractDate`'s zero-value `""` — a record is pushed regardless. -/
def processRawFile (w : World) (filePath : String) : Option ImageInfo :=
  match w.statSize filePath with
  | none => none
  | some fileSize =>
    let hash := u64ofInt fileSize
    let date :=
      match DateUtil.ExtractDate w filePath (goBase filePath) with
      | some d => d
      | none =>
        match extractFileCreationDate w filePath with
        | some dateTime => dateTime
        | none => ""
    some ⟨hash, filePath, date⟩

/-- `processVideoFile` (`deduplicator.go` lines 292-316): identical body to
`processRawFile`, duplicated as in the source. -/
def processVideoFile (w : World) (filePath : String) : Option ImageInfo :=
  match w.statSize filePath with
  | none => none
  | some fileSize =>
    let hash := u64ofInt fileSize
    let date :=
      match DateUtil.ExtractDate w filePath (goBase filePath) with
      | some d => d
      | none =>
        match extractFileCreationDate w filePath with
        | some dateTime => dateTime
        | none => ""
    some ⟨hash, filePath, date⟩

/-- The records that reach the result channel: each dispatched file is
classified (lines 83-95) and processed; failures produce no record.
The channel delivery order is modelled as the file order (the dedup result
is order-independent, proved separately). -/
def runRecords (w : World) (files : List String) : List ImageInfo :=
  files.filterMap (fun file =>
    match classify file with
    | .image => processImageFile w file
    | .raw => processRawFile w file
    | .video => processVideoFile w file
    | .unsupported => none)

/-- Per-class `seen` counter: incremented at dispatch (lines 85, 88, 91). -/
def seenCount (c : MediaClass) (files : List String) : Nat :=
  (files.filter (fun f => classify f == c)).length

/-- A successful byte copy performed by the placement loop:
destination date key, directory, allocated counter value, allocated file
name, and the source path. -/
structure Copy where
  dateStr : String
  dir : String
  num : Nat
  name : String
  src : String
deriving DecidableEq, Repr

/-- Contents of a directory's `index.json` as the decoder sees them. -/
inductive FileContent
  | missing
  | json (m : List (String × String))
  | corrupt
deriving DecidableEq, Repr

/-- Result of `json.Decoder.Decode` on the ledger file. -/
inductive DecodeResult
  | ok (m : List (String × String))
  | eof
  | err
deriving DecidableEq, Repr

/-- `decoder.Decode(&existingData)`: a file just created by `O_CREATE` is
empty and yields `io.EOF`; well-formed JSON yields the map; anything else a
decode error. -/
def decodeContent : FileContent → DecodeResult
  | .missing => .eof
  | .json m => .ok m
  | .corrupt => .err

/-- The merge loop `for k, v := range mapping { existingData[k] = v }`. -/
def mergeA (existing mapping : List (String × String)) : List (String × String) :=
  mapping.foldl (fun acc kv => setA acc kv.1 kv.2) existing

/-- `writeIndexJSON` (`deduplicator.go` lines 174-203) as a transformer of
the ledger file's content; the `Bool` is "returned an error".  An open
failure or a decode error returns before `Seek`/`Truncate`, leaving the
content unchanged; otherwise the merged map is written back.  (The model
assumes the final `Encode` write itself succeeds.) -/
def writeIndexJSON (openOk : Bool) (content : FileContent)
    (mapping : List (String × String)) : FileContent × Bool :=
  if openOk = false then (content, true)
  else
    match decodeContent content with
    | .err => (content, true)
    | .eof => (.json (mergeA [] mapping), false)
    | .ok m => (.json (mergeA m mapping), false)

/-- State threaded through the placement loop (`deduplicator.go`
lines 116-156): the `dateCounters` map, the successful copies (modelling the
files created in the destination tree), the ledgers on disk, and the
per-class copied counters. -/
structure PlaceState where
  dateCounters : List (String × Nat)
  copies : List Copy
  ledgers : String → FileContent
  imageCopied : Nat
  rawCopied : Nat
  videoCopied : Nat

/-- Initial placement state: empty counters, destination tree, ledgers. -/
def initPlaceState : PlaceState :=
  { dateCounters := []
    copies := []
    ledgers := fun _ => .missing
    imageCopied := 0
    rawCopied := 0
    videoCopied := 0 }

/-- `filepath.Join` for the two-component uses in the source; joining an
empty last component yields the cleaned first component. -/
def goJoin (a b : String) : String := if b = "" then a else a ++ "/" ++ b

/-- `fmt.Sprintf("%03d", n)`: zero-pad to at least three digits. -/
def pad3 (n : Nat) : String :=
  if n < 1000 then ⟨DateUtil.padNum 3 n⟩ else ⟨Nat.toDigits 10 n⟩

/-- One iteration of the placement loop (`deduplicator.go` lines 118-156):
create the date directory, compute the relative path, bump the
per-date-directory counter, allocate `%03d` + original extension, copy, merge
the ledger, and finally bump the per-class copied counter.  Every failure
`continue`s with the state accumulated so far. -/
def placeOne (w : World) (destDir : String) (st : PlaceState) (fileInfo : ImageInfo) :
    PlaceState :=
  let dateStr := fileInfo.isoDate
  let destPath := goJoin destDir dateStr
  if w.mkdirOk destPath = false then st
  else
    match w.relPath fileInfo.filename with
    | none => st
    | some rel =>
      let c := (lookupA st.dateCounters dateStr).getD 0 + 1
      let counters := setA st.dateCounters dateStr c
      let newFileName := pad3 c ++ goExt fileInfo.filename
      let destFile := goJoin destPath newFileName
      if w.copyOk destFile = false then { st with dateCounters := counters }
      else
        let st1 : PlaceState :=
          { st with
            dateCounters := counters
            copies := st.copies ++ [⟨dateStr, destPath, c, newFileName, fileInfo.filename⟩] }
        let written := writeIndexJSON (w.ledgerOpenOk destPath) (st1.ledgers destPath)
          [(rel, newFileName)]
        if written.2 then st1
        else
          let st2 : PlaceState :=
            { st1 with ledgers := fun dir => if dir = destPath then written.1 else st1.ledgers dir }
          match classify fileInfo.filename with
          | .image => { st2 with imageCopied := st2.imageCopied + 1 }
          | .raw => { st2 with rawCopied := st2.rawCopied + 1 }
          | .video => { st2 with videoCopied := st2.videoCopied + 1 }
          | .unsupported => st2

/-- The placement loop over the unique records. -/
def runPlacement (w : World) (destDir : String) (entries : List ImageInfo) : PlaceState :=
  entries.foldl (placeOne w destDir) initPlaceState

/-- The final per-class summary printed at the end of `ProcessFiles`. -/
structure Summary where
  imageCount : Nat
  rawCount : Nat
  videoCount : Nat
  imageCopied : Nat
  rawCopied : Nat
  videoCopied : Nat
  imageDuplicates : Nat
  rawDuplicates : Nat
  videoDuplicates : Nat
deriving DecidableEq, Repr

/-- `uint64` subtraction on represented values. -/
def goSub64 (a b : Nat) : Nat := (a % 2 ^ 64 + 2 ^ 64 - b % 2 ^ 64) % 2 ^ 64

/-- `ProcessFiles` (`deduplicator.go` lines 49-171) given the enumerated file
list: dispatch/classify/fingerprint, reduce, place, and derive the summary
(`duplicates = seen - copied` with `uint64` arithmetic, lines 159-161).
The reducer's re-stat ignores its error in Go, hence the `getD 0` oracle
view. -/
def ProcessFiles (w : World) (destDir : String) (files : List String) :
    Summary × PlaceState :=
  let records := runRecords w files
  let uniqueEntries := filterUniqueFiles (fun f => (w.statSize f).getD 0) records
  let st := runPlacement w destDir (uniqueEntries.map Prod.snd)
  let ic := seenCount .image files
  let rc := seenCount .raw files
  let vc := seenCount .video files
  ({ imageCount := ic
     rawCount := rc
     videoCount := vc
     imageCopied := st.imageCopied
     rawCopied := st.rawCopied
     videoCopied := st.videoCopied
     imageDuplicates := goSub64 ic st.imageCopied
     rawDuplicates := goSub64 rc st.rawCopied
     videoDuplicates := goSub64 vc st.videoCopied }, st)

/-- The per-class copied counter of a placement state. -/
def copiedOf : MediaClass → PlaceState → Nat
  | .image, st => st.imageCopied
  | .raw, st => st.rawCopied
  | .video, st => st.videoCopied
  | .unsupported, _ => 0

/-- The counter values of the files successfully copied into the date
directory `d`, in placement order. -/
def copiesIn (d : String) (st : PlaceState) : List Nat :=
  (st.copies.filter (fun cp => cp.dateStr == d)).map Copy.num

/-- A world where only embedded metadata succeeds: EXIF yields a date and
every other effect fails. -/
def exifOnlyWorld : World :=
  { exifDate := fun _ => some "2021-06-01"
    modTime := fun _ => none
    statSize := fun _ => none
    imageHash := fun _ => none
    mkdirOk := fun _ => false
    relPath := fun _ => none
    copyOk := fun _ => false
    ledgerOpenOk := fun _ => false }

/-- A world where stat succeeds (size 7) but every date source fails. -/
def noDateWorld : World :=
  { exifDate := fun _ => none
    modTime := fun _ => none
    statSize := fun _ => some 7
    imageHash := fun _ => none
    mkdirOk := fun _ => false
    relPath := fun _ => none
    copyOk := fun _ => false
    ledgerOpenOk := fun _ => false }

/-- A world where everything succeeds: EXIF date, stat, image hashing,
directory creation, relative paths, copies and ledger writes. -/
def allOkWorld : World :=
  { exifDate := fun _ => some "2021-06-01"
    modTime := fun _ => some "2021-06-01"
    statSize := fun _ => some 10
    imageHash := fun _ => some 5
    mkdirOk := fun _ => true
    relPath := fun p => some p
    copyOk := fun _ => true
    ledgerOpenOk := fun _ => true }

/-- Like `allOkWorld` but distinguishing two video files by size, and with
the copy of `out/2021-06-01/001.mp4` failing. -/
def copyFailWorld : World :=
  { exifDate := fun _ => some "2021-06-01"
    modTime := fun _ => none
    statSize := fun p => if p = "a.mp4" then some 1 else some 2
    imageHash := fun _ => none
    mkdirOk := fun _ => true
    relPath := fun p => some p
    copyOk := fun f => f != "out/2021-06-01/001.mp4"
    ledgerOpenOk := fun _ => true }

end ImageDup

namespace ImageDup

theorem lookupA_setA [DecidableEq κ] (l : List (κ × α)) (k h : κ) (v : α) :
    lookupA (setA l k v) h = if k = h then some v else lookupA l h := by
  induction l with
  | nil => simp [setA, lookupA]
  | cons p rest ih =>
    obtain ⟨k0, v0⟩ := p
    by_cases hk : k0 = k
    · subst hk
      by_cases hh : k0 = h <;> simp [setA, lookupA, hh]
    · by_cases hh : k0 = h
      · subst hh
        have : ¬ k = k0 := fun e => hk e.symm
        simp [setA, lookupA, hk, this]
      · simp [setA, lookupA, hk, hh, ih]

theorem fufStep_inv (sz : String → Int) (u : List (Nat × ImageInfo)) (s : List (Nat × Int))
    (x : ImageInfo) (hinv : FufInv sz u s) :
    FufInv sz (fufStep sz (u, s) x).1 (fufStep sz (u, s) x).2 := by
  unfold fufStep
  by_cases hc : lookupA u x.hash = none ∨ (lookupA s x.hash).getD 0 < sz x.filename
  · simp only [hc, if_pos]
    intro g
    rw [lookupA_setA, lookupA_setA]
    by_cases hg : x.hash = g <;> simp [hg, hinv g]
  · simp only [hc, if_neg, not_false_iff]
    exact hinv

theorem fuf_fold_lookup (sz : String → Int) (l : List ImageInfo) :
    ∀ u s, FufInv sz u s → ∀ h,
      lookupA (l.foldl (fufStep sz) (u, s)).1 h
        = pickAcc sz (lookupA u h) (l.filter (fun r => r.hash == h)) := by
  induction l with
  | nil => intro u s _ h; simp [pickAcc]
  | cons x rest ih =>
    intro u s hinv h
    have hstep : FufInv sz (fufStep sz (u, s) x).1 (fufStep sz (u, s) x).2 :=
      fufStep_inv sz u s x hinv
    have hmain := ih (fufStep sz (u, s) x).1 (fufStep sz (u, s) x).2 hstep h
    by_cases hxh : x.hash = h
    · subst hxh
      have hfil : (x :: rest).filter (fun r => r.hash == x.hash)
          = x :: rest.filter (fun r => r.hash == x.hash) := by
        simp [List.filter]
      rw [List.foldl_cons]
      rw [hmain, hfil]
      -- Analyse the step at hash x.hash.
      unfold fufStep
      by_cases hc : lookupA u x.hash = none ∨ (lookupA s x.hash).getD 0 < sz x.filename
      · simp only [hc, if_pos]
        rw [lookupA_setA]
        simp only [if_pos rfl]
        rcases hu : lookupA u x.hash with _ | a
        · simp [pickAcc]
        · -- key present: the condition says the new record is strictly larger
          have hs : lookupA s x.hash = some (sz a.filename) := by
            have := hinv x.hash
            rw [hu] at this
            simpa using this.symm
          rcases hc with hc1 | hc2
          · rw [hu] at hc1; cases hc1
          · rw [hs] at hc2
            simp only [Option.getD_some] at hc2
            simp [pickAcc, if_pos hc2]
      · simp only [hc, if_neg, not_false_iff]
        push_neg at hc
        obtain ⟨hc1, hc2⟩ := hc
        rcases hu : lookupA u x.hash with _ | a
        · exact absurd hu hc1
        · have hs : lookupA s x.hash = some (sz a.filename) := by
            have := hinv x.hash
            rw [hu] at this
            simpa using this.symm
          rw [hs] at hc2
          simp only [Option.getD_some] at hc2
          have hnl : ¬ sz a.filename < sz x.filename := not_lt.mpr hc2
          have hun : pickAcc sz (some a) (x :: rest.filter (fun r => r.hash == x.hash))
              = pickAcc sz (some (if sz a.filename < sz x.filename then x else a))
                  (rest.filter (fun r => r.hash == x.hash)) := rfl
          rw [hun, if_neg hnl]
    · have hfil : (x :: rest).filter (fun r => r.hash == h)
          = rest.filter (fun r => r.hash == h) := by
        have hb : (x.hash == h) = false := by simpa using hxh
        simp [List.filter, hb]
      rw [List.foldl_cons, hmain, hfil]
      -- the step did not touch hash h
      unfold fufStep
      by_cases hc : lookupA u x.hash = none ∨ (lookupA s x.hash).getD 0 < sz x.filename
      · simp only [hc, if_pos]
        rw [lookupA_setA]
        simp [hxh]
      · simp [hc]

theorem filterUniqueFiles_lookup (sz : String → Int) (l : List ImageInfo) (h : Nat) :
    lookupA (filterUniqueFiles sz l) h
      = pickAcc sz none (l.filter (fun r => r.hash == h)) := by
  unfold filterUniqueFiles
  exact fuf_fold_lookup sz l [] [] (fun g => rfl) h

/-- What `pickAcc` starting from `some a` produces: the first record of
`a :: rs` attaining the maximal size (strictly larger than everything before
it, at least as large as everything after it). -/
theorem pickAcc_spec (sz : String → Int) (rs : List ImageInfo) :
    ∀ a : ImageInfo, ∃ b l1 l2,
      pickAcc sz (some a) rs = some b ∧
      a :: rs = l1 ++ b :: l2 ∧
      (∀ x ∈ l1, sz x.filename < sz b.filename) ∧
      (∀ x ∈ l2, sz x.filename ≤ sz b.filename) := by
  induction rs with
  | nil =>
    intro a
    exact ⟨a, [], [], rfl, rfl, by simp, by simp⟩
  | cons r rs ih =>
    intro a
    by_cases hlt : sz a.filename < sz r.filename
    · obtain ⟨b, l1, l2, hpick, hdec, hl1, hl2⟩ := ih r
      refine ⟨b, a :: l1, l2, ?_, ?_, ?_, hl2⟩
      · simpa [pickAcc, if_pos hlt] using hpick
      · simpa using congrArg (List.cons a) hdec
      · intro x hx
        rw [List.mem_cons] at hx
        rcases hx with hx | hx
        · -- x = a; show sz a < sz b using sz a < sz r ≤ sz b
          subst hx
          have hrb : sz r.filename ≤ sz b.filename := by
            rcases l1 with _ | ⟨y, l1'⟩
            · simp only [List.nil_append, List.cons.injEq] at hdec
              exact le_of_eq (congrArg (fun z => sz z.filename) hdec.1)
            · simp only [List.cons_append, List.cons.injEq] at hdec
              refine le_of_lt ?_
              rw [hdec.1]
              exact hl1 y (List.mem_cons_self y l1')
          exact lt_of_lt_of_le hlt hrb
        · exact hl1 x hx
    · obtain ⟨b, l1, l2, hpick, hdec, hl1, hl2⟩ := ih a
      have hra : sz r.filename ≤ sz a.filename := not_lt.mp hlt
      rcases l1 with _ | ⟨y, l1'⟩
      · -- b is a itself: r and the rest go to l2
        simp only [List.nil_append, List.cons.injEq] at hdec
        obtain ⟨hba, hl2eq⟩ := hdec
        refine ⟨b, [], r :: l2, ?_, ?_, by simp, ?_⟩
        · simpa [pickAcc, if_neg hlt] using hpick
        · simp [← hba, ← hl2eq]
        · intro x hx
          rw [List.mem_cons] at hx
          rcases hx with hx | hx
          · subst hx
            exact le_of_le_of_eq hra (congrArg (fun z => sz z.filename) hba)
          · exact hl2 x hx
      · -- b is further along: a :: rs = (a :: l1') ++ b :: l2, insert r after a
        simp only [List.cons_append, List.cons.injEq] at hdec
        obtain ⟨hya, hrest⟩ := hdec
        refine ⟨b, a :: r :: l1', l2, ?_, ?_, ?_, hl2⟩
        · simpa [pickAcc, if_neg hlt] using hpick
        · simp [hrest]
        · intro x hx
          have hab : sz a.filename < sz b.filename := by
            rw [hya]
            exact hl1 y (List.mem_cons_self y l1')
          rw [List.mem_cons] at hx
          rcases hx with hx | hx
          · subst hx; exact hab
          rw [List.mem_cons] at hx
          rcases hx with hx | hx
          · subst hx; exact lt_of_le_of_lt hra hab
          · exact hl1 x (List.mem_cons_of_mem y hx)

end ImageDup

namespace DateUtil

theorem isDigit_digitChar (k : Nat) (hk : k < 10) : isDigit (digitChar k) = true := by
  interval_cases k <;> decide

theorem digVal_digitChar (k : Nat) (hk : k < 10) : digVal (digitChar k) = k := by
  interval_cases k <;> decide

theorem digitChar_ne_dash (k : Nat) (hk : k < 10) : digitChar k ≠ '-' := by
  interval_cases k <;> decide

theorem digitChar_ne_slash (k : Nat) (hk : k < 10) : digitChar k ≠ '/' := by
  interval_cases k <;> decide

theorem div_pow_lt_ten (k n : Nat) (hn : n < 10 ^ (k + 1)) : n / 10 ^ k < 10 := by
  have hpos : 0 < 10 ^ k := pow_pos (by norm_num) k
  refine (Nat.div_lt_iff_lt_mul hpos).mpr ?_
  calc n < 10 ^ (k + 1) := hn
  _ = 10 * 10 ^ k := by rw [pow_succ, mul_comm]

theorem readDigits_padNum (k : Nat) :
    ∀ acc n rest, n < 10 ^ k →
      readDigits k acc (padNum k n ++ rest) = some (acc * 10 ^ k + n, rest) := by
  induction k with
  | zero =>
    intro acc n rest hn
    have hn0 : n = 0 := by simpa using Nat.lt_one_iff.mp (by simpa using hn)
    subst hn0
    simp [padNum, readDigits]
  | succ k ih =>
    intro acc n rest hn
    have hq : n / 10 ^ k < 10 := div_pow_lt_ten k n hn
    have hr : n % 10 ^ k < 10 ^ k := Nat.mod_lt _ (pow_pos (by norm_num) k)
    have hdm : 10 ^ k * (n / 10 ^ k) + n % 10 ^ k = n := Nat.div_add_mod n (10 ^ k)
    simp only [padNum, List.cons_append, readDigits, isDigit_digitChar _ hq, if_true,
      digVal_digitChar _ hq, List.append_eq]
    rw [ih (acc * 10 + n / 10 ^ k) (n % 10 ^ k) rest hr]
    have h2 : n / 10 ^ k * 10 ^ k + n % 10 ^ k = n := Nat.div_add_mod' n (10 ^ k)
    have h3 : (acc * 10 + n / 10 ^ k) * 10 ^ k + n % 10 ^ k = acc * 10 ^ (k + 1) + n := by
      calc (acc * 10 + n / 10 ^ k) * 10 ^ k + n % 10 ^ k
          = acc * (10 ^ k * 10) + (n / 10 ^ k * 10 ^ k + n % 10 ^ k) := by ring
        _ = acc * (10 ^ k * 10) + n := by rw [h2]
        _ = acc * 10 ^ (k + 1) + n := by rw [pow_succ]
    rw [h3]

theorem readDigits_stuck (j : Nat) :
    ∀ k acc n c rest, j < k → n < 10 ^ j → isDigit c = false →
      readDigits k acc (padNum j n ++ c :: rest) = none := by
  induction j with
  | zero =>
    intro k acc n c rest hjk hn hc
    have hn0 : n = 0 := by omega
    subst hn0
    obtain ⟨k1, rfl⟩ : ∃ k1, k = k1 + 1 := ⟨k - 1, by omega⟩
    simp [padNum, readDigits, hc]
  | succ j ih =>
    intro k acc n c rest hjk hn hc
    obtain ⟨k1, rfl⟩ : ∃ k1, k = k1 + 1 := ⟨k - 1, by omega⟩
    have hq : n / 10 ^ j < 10 := div_pow_lt_ten j n hn
    have hr : n % 10 ^ j < 10 ^ j := Nat.mod_lt _ (pow_pos (by norm_num) j)
    simp only [padNum, List.cons_append, readDigits, isDigit_digitChar _ hq, if_true,
      List.append_eq]
    exact ih k1 _ _ c rest (by omega) hr hc

theorem readDigits_nil (k acc : Nat) : readDigits (k + 1) acc [] = none := rfl

theorem consume_eq (ch : Char) (rest : List Char) : consume ch (ch :: rest) = some rest := by
  simp [consume]

theorem consume_ne (ch c : Char) (rest : List Char) (h : ¬ c = ch) :
    consume ch (c :: rest) = none := by
  simp [consume, h]

theorem consume_dash_padNum (k n : Nat) (rest : List Char) (hn : n < 10 ^ (k + 1)) :
    consume '-' (padNum (k + 1) n ++ rest) = none := by
  have hq : n / 10 ^ k < 10 := div_pow_lt_ten k n hn
  simp [padNum, consume, digitChar_ne_dash _ hq]

theorem consume_slash_padNum (k n : Nat) (rest : List Char) (hn : n < 10 ^ (k + 1)) :
    consume '/' (padNum (k + 1) n ++ rest) = none := by
  have hq : n / 10 ^ k < 10 := div_pow_lt_ten k n hn
  simp [padNum, consume, digitChar_ne_slash _ hq]

theorem daysIn_le_31 (m y : Nat) : daysIn m y ≤ 31 := by
  unfold daysIn
  split
  · split <;> omega
  · split <;> omega

theorem mkDate_some (y m d : Nat) (h1 : 1 ≤ m) (h2 : m ≤ 12) (h3 : 1 ≤ d)
    (h4 : d ≤ daysIn m y) : mkDate y m d = some ⟨y, m, d⟩ := by
  rw [mkDate, if_pos]
  exact ⟨h1, h2, h3, h4⟩

theorem padNum_split (j k : Nat) :
    ∀ n, n < 10 ^ (j + k) →
      padNum (j + k) n = padNum j (n / 10 ^ k) ++ padNum k (n % 10 ^ k) := by
  induction j with
  | zero =>
    intro n hn
    simp [padNum, Nat.mod_eq_of_lt (by simpa using hn)]
  | succ j ih =>
    intro n hn
    have hjk : j + 1 + k = (j + k) + 1 := by omega
    rw [hjk]
    have hmod : n % 10 ^ (j + k) < 10 ^ (j + k) := Nat.mod_lt _ (pow_pos (by norm_num) _)
    have hhead : n / 10 ^ (j + k) = n / 10 ^ k / 10 ^ j := by
      rw [Nat.div_div_eq_div_mul, ← pow_add, Nat.add_comm k j]
    have htail1 : n % 10 ^ (j + k) / 10 ^ k = n / 10 ^ k % 10 ^ j := by
      have h1 : (10 : Nat) ^ (j + k) = 10 ^ k * 10 ^ j := by rw [← pow_add, Nat.add_comm k j]
      rw [h1, Nat.mod_mul_right_div_self]
    have htail2 : n % 10 ^ (j + k) % 10 ^ k = n % 10 ^ k :=
      Nat.mod_mod_of_dvd n (pow_dvd_pow 10 (by omega))
    calc padNum ((j + k) + 1) n
        = digitChar (n / 10 ^ (j + k)) :: padNum (j + k) (n % 10 ^ (j + k)) := rfl
      _ = digitChar (n / 10 ^ k / 10 ^ j)
            :: (padNum j (n % 10 ^ (j + k) / 10 ^ k) ++ padNum k (n % 10 ^ (j + k) % 10 ^ k)) := by
          rw [hhead, ih _ hmod]
      _ = digitChar (n / 10 ^ k / 10 ^ j)
            :: (padNum j (n / 10 ^ k % 10 ^ j) ++ padNum k (n % 10 ^ k)) := by
          rw [htail1, htail2]
      _ = padNum (j + 1) (n / 10 ^ k) ++ padNum k (n % 10 ^ k) := rfl

end DateUtil

namespace DateUtil

theorem readDigits_padNum_add (j : Nat) :
    ∀ k acc n rest, n < 10 ^ j →
      readDigits (j + k) acc (padNum j n ++ rest) = readDigits k (acc * 10 ^ j + n) rest := by
  induction j with
  | zero =>
    intro k acc n rest hn
    have hn0 : n = 0 := by simpa using Nat.lt_one_iff.mp (by simpa using hn)
    subst hn0
    simp [padNum]
  | succ j ih =>
    intro k acc n rest hn
    have hq : n / 10 ^ j < 10 := div_pow_lt_ten j n hn
    have hr : n % 10 ^ j < 10 ^ j := Nat.mod_lt _ (pow_pos (by norm_num) j)
    have hstep : j + 1 + k = (j + k) + 1 := by omega
    rw [hstep]
    simp only [padNum, List.cons_append, readDigits, isDigit_digitChar _ hq, if_true,
      digVal_digitChar _ hq, List.append_eq]
    rw [ih k (acc * 10 + n / 10 ^ j) (n % 10 ^ j) rest hr]
    have h2 : n / 10 ^ j * 10 ^ j + n % 10 ^ j = n := Nat.div_add_mod' n (10 ^ j)
    have h3 : (acc * 10 + n / 10 ^ j) * 10 ^ j + n % 10 ^ j = acc * 10 ^ (j + 1) + n := by
      calc (acc * 10 + n / 10 ^ j) * 10 ^ j + n % 10 ^ j
          = acc * (10 ^ j * 10) + (n / 10 ^ j * 10 ^ j + n % 10 ^ j) := by ring
        _ = acc * (10 ^ j * 10) + n := by rw [h2]
        _ = acc * 10 ^ (j + 1) + n := by rw [pow_succ]
    rw [h3]

theorem parseYMDdash_iso (y m d : Nat) (hy : y < 10000) (hm1 : 1 ≤ m) (hm : m ≤ 12)
    (hd1 : 1 ≤ d) (hd : d ≤ daysIn m y) :
    parseYMDdash (isoChars y m d) = some ⟨y, m, d⟩ := by
  have hm' : m < 10 ^ 2 := by omega
  have hd' : d < 10 ^ 2 := by have := daysIn_le_31 m y; omega
  have hy' : y < 10 ^ 4 := by omega
  have e1 : readDigits 4 0 (isoChars y m d)
      = some (y, '-' :: (padNum 2 m ++ '-' :: padNum 2 d)) := by
    simpa [isoChars] using
      readDigits_padNum 4 0 y ('-' :: (padNum 2 m ++ '-' :: padNum 2 d)) hy'
  have e2 : readDigits 2 0 (padNum 2 m ++ '-' :: padNum 2 d)
      = some (m, '-' :: padNum 2 d) := by
    simpa using readDigits_padNum 2 0 m ('-' :: padNum 2 d) hm'
  have e3 : readDigits 2 0 (padNum 2 d) = some (d, []) := by
    simpa using readDigits_padNum 2 0 d [] hd'
  simp [parseYMDdash, e1, consume_eq, e2, e3, mkDate_some y m d hm1 hm hd1 hd]

theorem parseYMDdash_dmySlash (y m d : Nat) (hd : d < 100) :
    parseYMDdash (dmySlashChars d m y) = none := by
  have e1 : readDigits 4 0 (dmySlashChars d m y) = none := by
    have := readDigits_stuck 2 4 0 d '/' (padNum 2 m ++ '/' :: padNum 4 y)
      (by omega) (by omega) (by decide)
    simpa [dmySlashChars] using this
  simp [parseYMDdash, e1]

theorem parseDMYdash_dmySlash (y m d : Nat) (hd : d < 100) :
    parseDMYdash (dmySlashChars d m y) = none := by
  have e1 : readDigits 2 0 (dmySlashChars d m y)
      = some (d, '/' :: (padNum 2 m ++ '/' :: padNum 4 y)) := by
    simpa [dmySlashChars] using
      readDigits_padNum 2 0 d ('/' :: (padNum 2 m ++ '/' :: padNum 4 y)) (by omega)
  have e2 : consume '-' ('/' :: (padNum 2 m ++ '/' :: padNum 4 y)) = none :=
    consume_ne '-' '/' _ (by decide)
  simp [parseDMYdash, e1, e2]

theorem parseYMDslash_dmySlash (y m d : Nat) (hd : d < 100) :
    parseYMDslash (dmySlashChars d m y) = none := by
  have e1 : readDigits 4 0 (dmySlashChars d m y) = none := by
    have := readDigits_stuck 2 4 0 d '/' (padNum 2 m ++ '/' :: padNum 4 y)
      (by omega) (by omega) (by decide)
    simpa [dmySlashChars] using this
  simp [parseYMDslash, e1]

theorem parseDMYslash_dmySlash (y m d : Nat) (hy : y < 10000) (hm1 : 1 ≤ m) (hm : m ≤ 12)
    (hd1 : 1 ≤ d) (hd : d ≤ daysIn m y) :
    parseDMYslash (dmySlashChars d m y) = some ⟨y, m, d⟩ := by
  have hm' : m < 10 ^ 2 := by omega
  have hd' : d < 10 ^ 2 := by have := daysIn_le_31 m y; omega
  have hy' : y < 10 ^ 4 := by omega
  have e1 : readDigits 2 0 (dmySlashChars d m y)
      = some (d, '/' :: (padNum 2 m ++ '/' :: padNum 4 y)) := by
    simpa [dmySlashChars] using
      readDigits_padNum 2 0 d ('/' :: (padNum 2 m ++ '/' :: padNum 4 y)) hd'
  have e2 : readDigits 2 0 (padNum 2 m ++ '/' :: padNum 4 y)
      = some (m, '/' :: padNum 4 y) := by
    simpa using readDigits_padNum 2 0 m ('/' :: padNum 4 y) hm'
  have e3 : readDigits 4 0 (padNum 4 y) = some (y, []) := by
    simpa using readDigits_padNum 4 0 y [] hy'
  simp [parseDMYslash, e1, consume_eq, e2, e3, mkDate_some y m d hm1 hm hd1 hd]

theorem parseYMDdash_ymd8 (y m d : Nat) (hy : y < 10000) (hm : m < 100) (hd : d < 100) :
    parseYMDdash (ymd8Chars y m d) = none := by
  have e1 : readDigits 4 0 (ymd8Chars y m d) = some (y, padNum 2 m ++ padNum 2 d) := by
    simpa [ymd8Chars] using readDigits_padNum 4 0 y (padNum 2 m ++ padNum 2 d) (by omega)
  have e2 : consume '-' (padNum 2 m ++ padNum 2 d) = none :=
    consume_dash_padNum 1 m (padNum 2 d) (by omega)
  simp [parseYMDdash, e1, e2]

theorem padNum4_eq (y : Nat) (hy : y < 10000) :
    padNum 4 y = padNum 2 (y / 100) ++ padNum 2 (y % 100) := by
  have h := padNum_split 2 2 y (by norm_num; exact hy)
  norm_num at h
  exact h

theorem parseDMYdash_ymd8 (y m d : Nat) (hy : y < 10000) (hm : m < 100) (hd : d < 100) :
    parseDMYdash (ymd8Chars y m d) = none := by
  have e1 : readDigits 2 0 (ymd8Chars y m d)
      = some (y / 100, padNum 2 (y % 100) ++ (padNum 2 m ++ padNum 2 d)) := by
    have hb : y / 100 < 10 ^ 2 := by norm_num; omega
    have := readDigits_padNum 2 0 (y / 100)
      (padNum 2 (y % 100) ++ (padNum 2 m ++ padNum 2 d)) hb
    simpa [ymd8Chars, padNum4_eq y hy, List.append_assoc] using this
  have e2 : consume '-' (padNum 2 (y % 100) ++ (padNum 2 m ++ padNum 2 d)) = none :=
    consume_dash_padNum 1 (y % 100) _ (by norm_num; omega)
  simp [parseDMYdash, e1, e2]

theorem parseYMDslash_ymd8 (y m d : Nat) (hy : y < 10000) (hm : m < 100) (hd : d < 100) :
    parseYMDslash (ymd8Chars y m d) = none := by
  have e1 : readDigits 4 0 (ymd8Chars y m d) = some (y, padNum 2 m ++ padNum 2 d) := by
    simpa [ymd8Chars] using readDigits_padNum 4 0 y (padNum 2 m ++ padNum 2 d) (by omega)
  have e2 : consume '/' (padNum 2 m ++ padNum 2 d) = none :=
    consume_slash_padNum 1 m (padNum 2 d) (by omega)
  simp [parseYMDslash, e1, e2]

theorem parseDMYslash_ymd8 (y m d : Nat) (hy : y < 10000) (hm : m < 100) (hd : d < 100) :
    parseDMYslash (ymd8Chars y m d) = none := by
  have e1 : readDigits 2 0 (ymd8Chars y m d)
      = some (y / 100, padNum 2 (y % 100) ++ (padNum 2 m ++ padNum 2 d)) := by
    have hb : y / 100 < 10 ^ 2 := by norm_num; omega
    have := readDigits_padNum 2 0 (y / 100)
      (padNum 2 (y % 100) ++ (padNum 2 m ++ padNum 2 d)) hb
    simpa [ymd8Chars, padNum4_eq y hy, List.append_assoc] using this
  have e2 : consume '/' (padNum 2 (y % 100) ++ (padNum 2 m ++ padNum 2 d)) = none :=
    consume_slash_padNum 1 (y % 100) _ (by norm_num; omega)
  simp [parseDMYslash, e1, e2]

theorem parseYMD8_ymd8 (y m d : Nat) (hy : y < 10000) (hm1 : 1 ≤ m) (hm : m ≤ 12)
    (hd1 : 1 ≤ d) (hd : d ≤ daysIn m y) :
    parseYMD8 (ymd8Chars y m d) = some ⟨y, m, d⟩ := by
  have hm' : m < 10 ^ 2 := by omega
  have hd' : d < 10 ^ 2 := by have := daysIn_le_31 m y; omega
  have e1 : readDigits 4 0 (ymd8Chars y m d) = some (y, padNum 2 m ++ padNum 2 d) := by
    simpa [ymd8Chars] using readDigits_padNum 4 0 y (padNum 2 m ++ padNum 2 d) (by omega)
  have e2 : readDigits 2 0 (padNum 2 m ++ padNum 2 d) = some (m, padNum 2 d) := by
    simpa using readDigits_padNum 2 0 m (padNum 2 d) hm'
  have e3 : readDigits 2 0 (padNum 2 d) = some (d, []) := by
    simpa using readDigits_padNum 2 0 d [] hd'
  simp [parseYMD8, e1, e2, e3, mkDate_some y m d hm1 hm hd1 hd]

end DateUtil

namespace DateUtil

theorem readDigits4_ymd6 (yy m d : Nat) (hyy : yy < 100) (hm : m < 100) (hd : d < 100) :
    readDigits 4 0 (ymd6Chars yy m d) = some (yy * 100 + m, padNum 2 d) := by
  have h1 : readDigits 4 0 (ymd6Chars yy m d)
      = readDigits 2 (yy) (padNum 2 m ++ padNum 2 d) := by
    have := readDigits_padNum_add 2 2 0 yy (padNum 2 m ++ padNum 2 d) (by norm_num; omega)
    simpa [ymd6Chars, List.append_assoc] using this
  have h2 : readDigits 2 yy (padNum 2 m ++ padNum 2 d)
      = readDigits 0 (yy * 100 + m) (padNum 2 d) := by
    have := readDigits_padNum_add 2 0 yy m (padNum 2 d) (by norm_num; omega)
    norm_num at this
    simpa using this
  rw [h1, h2]
  rfl

theorem parseYMDdash_ymd6 (yy m d : Nat) (hyy : yy < 100) (hm : m < 100) (hd : d < 100) :
    parseYMDdash (ymd6Chars yy m d) = none := by
  have e1 := readDigits4_ymd6 yy m d hyy hm hd
  have e2 : consume '-' (padNum 2 d ++ ([] : List Char)) = none :=
    consume_dash_padNum 1 d [] (by norm_num; omega)
  rw [List.append_nil] at e2
  simp [parseYMDdash, e1, e2]

theorem parseDMYdash_ymd6 (yy m d : Nat) (hyy : yy < 100) (hm : m < 100) (hd : d < 100) :
    parseDMYdash (ymd6Chars yy m d) = none := by
  have e1 : readDigits 2 0 (ymd6Chars yy m d) = some (yy, padNum 2 m ++ padNum 2 d) := by
    simpa [ymd6Chars, List.append_assoc] using
      readDigits_padNum 2 0 yy (padNum 2 m ++ padNum 2 d) (by norm_num; omega)
  have e2 : consume '-' (padNum 2 m ++ padNum 2 d) = none :=
    consume_dash_padNum 1 m _ (by norm_num; omega)
  simp [parseDMYdash, e1, e2]

theorem parseYMDslash_ymd6 (yy m d : Nat) (hyy : yy < 100) (hm : m < 100) (hd : d < 100) :
    parseYMDslash (ymd6Chars yy m d) = none := by
  have e1 := readDigits4_ymd6 yy m d hyy hm hd
  have e2 : consume '/' (padNum 2 d ++ ([] : List Char)) = none :=
    consume_slash_padNum 1 d [] (by norm_num; omega)
  rw [List.append_nil] at e2
  simp [parseYMDslash, e1, e2]

theorem parseDMYslash_ymd6 (yy m d : Nat) (hyy : yy < 100) (hm : m < 100) (hd : d < 100) :
    parseDMYslash (ymd6Chars yy m d) = none := by
  have e1 : readDigits 2 0 (ymd6Chars yy m d) = some (yy, padNum 2 m ++ padNum 2 d) := by
    simpa [ymd6Chars, List.append_assoc] using
      readDigits_padNum 2 0 yy (padNum 2 m ++ padNum 2 d) (by norm_num; omega)
  have e2 : consume '/' (padNum 2 m ++ padNum 2 d) = none :=
    consume_slash_padNum 1 m _ (by norm_num; omega)
  simp [parseDMYslash, e1, e2]

theorem parseYMD8_ymd6 (yy m d : Nat) (hyy : yy < 100) (hm : m < 100) (hd : d < 100) :
    parseYMD8 (ymd6Chars yy m d) = none := by
  have e1 := readDigits4_ymd6 yy m d hyy hm hd
  have e2 : readDigits 2 0 (padNum 2 d) = some (d, []) := by
    simpa using readDigits_padNum 2 0 d [] (by norm_num; omega)
  have e3 : readDigits 2 0 ([] : List Char) = none := rfl
  simp [parseYMD8, e1, e2, e3]

theorem parseYMD6_ymd6 (yy m d : Nat) (hyy : yy < 100) (hm1 : 1 ≤ m) (hm : m ≤ 12)
    (hd1 : 1 ≤ d) (hd : d ≤ daysIn m (yearOf2 yy)) :
    parseYMD6 (ymd6Chars yy m d) = some ⟨yearOf2 yy, m, d⟩ := by
  have hm' : m < 10 ^ 2 := by omega
  have hd' : d < 10 ^ 2 := by have := daysIn_le_31 m (yearOf2 yy); omega
  have e1 : readDigits 2 0 (ymd6Chars yy m d) = some (yy, padNum 2 m ++ padNum 2 d) := by
    simpa [ymd6Chars, List.append_assoc] using
      readDigits_padNum 2 0 yy (padNum 2 m ++ padNum 2 d) (by norm_num; omega)
  have e2 : readDigits 2 0 (padNum 2 m ++ padNum 2 d) = some (m, padNum 2 d) := by
    simpa using readDigits_padNum 2 0 m (padNum 2 d) hm'
  have e3 : readDigits 2 0 (padNum 2 d) = some (d, []) := by
    simpa using readDigits_padNum 2 0 d [] hd'
  have hmk : mkDate (if 69 ≤ yy then 1900 + yy else 2000 + yy) m d
      = some ⟨if 69 ≤ yy then 1900 + yy else 2000 + yy, m, d⟩ := by
    have hy2 : (if 69 ≤ yy then 1900 + yy else 2000 + yy) = yearOf2 yy := rfl
    rw [hy2]
    exact mkDate_some (yearOf2 yy) m d hm1 hm hd1 hd
  simp [parseYMD6, e1, e2, e3, yearOf2, hmk]

theorem firstParse_iso (y m d : Nat) (hy : y < 10000) (hm1 : 1 ≤ m) (hm : m ≤ 12)
    (hd1 : 1 ≤ d) (hd : d ≤ daysIn m y) :
    firstParse dateLayouts (isoChars y m d) = some ⟨y, m, d⟩ := by
  simp [dateLayouts, firstParse, parseYMDdash_iso y m d hy hm1 hm hd1 hd]

theorem firstParse_dmySlash (y m d : Nat) (hy : y < 10000) (hm1 : 1 ≤ m) (hm : m ≤ 12)
    (hd1 : 1 ≤ d) (hd : d ≤ daysIn m y) :
    firstParse dateLayouts (dmySlashChars d m y) = some ⟨y, m, d⟩ := by
  have hd' : d < 100 := by have := daysIn_le_31 m y; omega
  simp [dateLayouts, firstParse,
    parseYMDdash_dmySlash y m d hd', parseDMYdash_dmySlash y m d hd',
    parseYMDslash_dmySlash y m d hd', parseDMYslash_dmySlash y m d hy hm1 hm hd1 hd]

theorem firstParse_ymd8 (y m d : Nat) (hy : y < 10000) (hm1 : 1 ≤ m) (hm : m ≤ 12)
    (hd1 : 1 ≤ d) (hd : d ≤ daysIn m y) :
    firstParse dateLayouts (ymd8Chars y m d) = some ⟨y, m, d⟩ := by
  have hm' : m < 100 := by omega
  have hd' : d < 100 := by have := daysIn_le_31 m y; omega
  simp [dateLayouts, firstParse,
    parseYMDdash_ymd8 y m d hy hm' hd', parseDMYdash_ymd8 y m d hy hm' hd',
    parseYMDslash_ymd8 y m d hy hm' hd', parseDMYslash_ymd8 y m d hy hm' hd',
    parseYMD8_ymd8 y m d hy hm1 hm hd1 hd]

theorem firstParse_ymd6 (yy m d : Nat) (hyy : yy < 100) (hm1 : 1 ≤ m) (hm : m ≤ 12)
    (hd1 : 1 ≤ d) (hd : d ≤ daysIn m (yearOf2 yy)) :
    firstParse dateLayouts (ymd6Chars yy m d) = some ⟨yearOf2 yy, m, d⟩ := by
  have hm' : m < 100 := by omega
  have hd' : d < 100 := by have := daysIn_le_31 m (yearOf2 yy); omega
  simp [dateLayouts, firstParse,
    parseYMDdash_ymd6 yy m d hyy hm' hd', parseDMYdash_ymd6 yy m d hyy hm' hd',
    parseYMDslash_ymd6 yy m d hyy hm' hd', parseDMYslash_ymd6 yy m d hyy hm' hd',
    parseYMD8_ymd6 yy m d hyy hm' hd', parseYMD6_ymd6 yy m d hyy hm1 hm hd1 hd]

end DateUtil

namespace DateUtil

/-- C2: `ExtractDate` tries the three tiers in strict order — embedded
metadata date first, then filename-pattern date, then filesystem modification
time — returning the first success; in particular, whenever the embedded
metadata yields a parseable timestamp, that date is returned and any date in
the filename is ignored. -/
theorem claim2_extractDate_tier_order (w : World) (p fn : String) :
    (∀ e, w.exifDate p = some e → ExtractDate w p fn = some e) ∧
    (w.exifDate p = none → ∀ e, extractDateFromFilename fn = some e →
      ExtractDate w p fn = some e) ∧
    (w.exifDate p = none → extractDateFromFilename fn = none →
      ExtractDate w p fn = extractFileModTime w p) := by
  refine ⟨?_, ?_, ?_⟩
  · intro e he
    simp [ExtractDate, extractExifDate, he]
  · intro h0 e he
    simp [ExtractDate, extractExifDate, h0, he]
  · intro h0 h1
    simp [ExtractDate, extractExifDate, h0, h1]

/-- C2 witness: a file whose embedded metadata says `2021-06-01` while its
filename contains `20200101` resolves to `2021-06-01`. -/
theorem claim2_witness :
    ExtractDate ImageDup.exifOnlyWorld "a/IMG_20200101.jpg" "IMG_20200101.jpg"
      = some "2021-06-01" :=
  (claim2_extractDate_tier_order ImageDup.exifOnlyWorld
    "a/IMG_20200101.jpg" "IMG_20200101.jpg").1 "2021-06-01" rfl

/-- C4 counterexample: the claim promises that a filename containing a date
in any of the six layouts resolves to that date, but the regex of
`extractDateFromFilename` has no `\d{2}-\d{2}-\d{4}` and no
`\d{4}/\d{2}/\d{2}` alternative, so `DD-MM-YYYY` and `YYYY/MM/DD` filenames
produce no date at all. -/
theorem claim4_counterexample :
    extractDateFromFilename "01-06-2021" = none ∧
    extractDateFromFilename "2021/06/01" = none := by
  exact ⟨rfl, rfl⟩

/-- C4 (amended): tier-2 matches the leftmost substring shaped
`\d{4}-\d{2}-\d{2}`, `\d{2}/\d{2}/\d{4}`, `\d{8}` or `\d{6}` (alternatives in
that order) and tries the six layouts in order on it, the first successful
parse winning; hence a filename whose first matched substring is a date in
layout `YYYY-MM-DD`, `DD/MM/YYYY`, `YYYYMMDD` or `YYMMDD` resolves to that
date (two-digit years per Go's 69-rule), while `DD-MM-YYYY` and `YYYY/MM/DD`
dates are never matched, and a filename with no matching substring yields an
error. -/
theorem claim4_amended_layouts (fn : String) (y m d yy : Nat)
    (hy : y < 10000) (hyy : yy < 100) (hm1 : 1 ≤ m) (hm : m ≤ 12) (hd1 : 1 ≤ d) :
    (findFirst fn.data = none → extractDateFromFilename fn = none) ∧
    (d ≤ daysIn m y →
      (findFirst fn.data = some (isoChars y m d) →
        extractDateFromFilename fn = some (isoString y m d)) ∧
      (findFirst fn.data = some (dmySlashChars d m y) →
        extractDateFromFilename fn = some (isoString y m d)) ∧
      (findFirst fn.data = some (ymd8Chars y m d) →
        extractDateFromFilename fn = some (isoString y m d))) ∧
    (d ≤ daysIn m (yearOf2 yy) →
      (findFirst fn.data = some (ymd6Chars yy m d) →
        extractDateFromFilename fn = some (isoString (yearOf2 yy) m d))) := by
  refine ⟨?_, fun hd => ⟨?_, ?_, ?_⟩, fun hd => ?_⟩
  · intro hnone
    simp [extractDateFromFilename, hnone]
  · intro hfind
    simp only [extractDateFromFilename, hfind]
    rw [firstParse_iso y m d hy hm1 hm hd1 hd]
    rfl
  · intro hfind
    simp only [extractDateFromFilename, hfind]
    rw [firstParse_dmySlash y m d hy hm1 hm hd1 hd]
    rfl
  · intro hfind
    simp only [extractDateFromFilename, hfind]
    rw [firstParse_ymd8 y m d hy hm1 hm hd1 hd]
    rfl
  · intro hfind
    simp only [extractDateFromFilename, hfind]
    rw [firstParse_ymd6 yy m d hyy hm1 hm hd1 hd]
    rfl

/-- C4 witness: `IMG_2021-06-01.jpg` resolves to `2021-06-01` through the
amended statement (its first matched substring is the ISO date). -/
theorem claim4_witness :
    extractDateFromFilename "IMG_2021-06-01.jpg" = some "2021-06-01" := by
  have h := (claim4_amended_layouts "IMG_2021-06-01.jpg" 2021 6 1 21
    (by norm_num) (by norm_num) (by norm_num) (by norm_num) (by norm_num)).2.1
    (by decide)
  have h2 := h.1 (by decide)
  simpa [isoString, isoChars] using h2

end DateUtil

namespace ImageDup

theorem lookupA_none_iff [DecidableEq κ] (l : List (κ × α)) (k : κ) :
    lookupA l k = none ↔ k ∉ l.map Prod.fst := by
  induction l with
  | nil => simp [lookupA]
  | cons p rest ih =>
    obtain ⟨k0, v0⟩ := p
    by_cases hk : k0 = k
    · subst hk
      simp [lookupA]
    · simp [lookupA, hk, ih, Ne.symm hk]

theorem setA_keys_present [DecidableEq κ] (l : List (κ × α)) (k : κ) (v : α)
    (h : ¬ lookupA l k = none) : (setA l k v).map Prod.fst = l.map Prod.fst := by
  induction l with
  | nil => simp [lookupA] at h
  | cons p rest ih =>
    obtain ⟨k0, v0⟩ := p
    by_cases hk : k0 = k
    · subst hk
      simp [setA]
    · rw [lookupA, if_neg hk] at h
      simp [setA, hk, ih h]

theorem setA_keys_absent [DecidableEq κ] (l : List (κ × α)) (k : κ) (v : α)
    (h : lookupA l k = none) : (setA l k v).map Prod.fst = l.map Prod.fst ++ [k] := by
  induction l with
  | nil => simp [setA]
  | cons p rest ih =>
    obtain ⟨k0, v0⟩ := p
    by_cases hk : k0 = k
    · subst hk
      rw [lookupA, if_pos rfl] at h
      cases h
    · rw [lookupA, if_neg hk] at h
      simp [setA, hk, ih h]

theorem fufStep_keys_nodup (sz : String → Int) (u : List (Nat × ImageInfo))
    (s : List (Nat × Int)) (x : ImageInfo) (h : (u.map Prod.fst).Nodup) :
    ((fufStep sz (u, s) x).1.map Prod.fst).Nodup := by
  unfold fufStep
  by_cases hc : lookupA u x.hash = none ∨ (lookupA s x.hash).getD 0 < sz x.filename
  · simp only [hc, if_pos]
    by_cases hu : lookupA u x.hash = none
    · rw [setA_keys_absent u x.hash x hu]
      have hnotin : x.hash ∉ u.map Prod.fst := (lookupA_none_iff u x.hash).mp hu
      simp [List.nodup_append, h, hnotin]
    · rw [setA_keys_present u x.hash x hu]
      exact h
  · simp only [hc, if_neg, not_false_iff]
    exact h

theorem fuf_fold_nodup (sz : String → Int) (l : List ImageInfo) :
    ∀ u s, (u.map Prod.fst).Nodup →
      (((l.foldl (fufStep sz) (u, s)).1.map Prod.fst)).Nodup := by
  induction l with
  | nil => intro u s h; exact h
  | cons x rest ih =>
    intro u s h
    rw [List.foldl_cons]
    exact ih (fufStep sz (u, s) x).1 (fufStep sz (u, s) x).2 (fufStep_keys_nodup sz u s x h)

/-- C1: for every drained multiset of records and every fingerprint occurring
in it, `filterUniqueFiles` maps that fingerprint to exactly one record — the
first record (in arrival order) among those with that fingerprint whose
backing file attains the maximal size: everything arriving before it is
strictly smaller, everything after is no larger (so on ties the first arrival
is kept); and the resulting map's keys are distinct. -/
theorem claim1_reducer_keeps_largest (sz : String → Int) (l : List ImageInfo) (h : Nat)
    (hmem : h ∈ l.map ImageInfo.hash) :
    (∃ r l1 l2,
      lookupA (filterUniqueFiles sz l) h = some r ∧
      l.filter (fun x => x.hash == h) = l1 ++ r :: l2 ∧
      (∀ x ∈ l1, sz x.filename < sz r.filename) ∧
      (∀ x ∈ l2, sz x.filename ≤ sz r.filename)) ∧
    ((filterUniqueFiles sz l).map Prod.fst).Nodup := by
  constructor
  · obtain ⟨x, hx, hxh⟩ : ∃ x ∈ l, x.hash = h := by
      simpa using hmem
    have hxf : x ∈ l.filter (fun r => r.hash == h) := by
      simp [List.mem_filter, hx, hxh]
    obtain ⟨a, rest, hfil⟩ : ∃ a rest, l.filter (fun r => r.hash == h) = a :: rest := by
      cases hf : l.filter (fun r => r.hash == h) with
      | nil => rw [hf] at hxf; cases hxf
      | cons a rest => exact ⟨a, rest, rfl⟩
    have hlook := filterUniqueFiles_lookup sz l h
    rw [hfil] at hlook
    have hstep : pickAcc sz none (a :: rest) = pickAcc sz (some a) rest := rfl
    rw [hstep] at hlook
    obtain ⟨b, l1, l2, hpick, hdec, hl1, hl2⟩ := pickAcc_spec sz rest a
    refine ⟨b, l1, l2, ?_, ?_, hl1, hl2⟩
    · rw [hlook, hpick]
    · rw [hfil, hdec]
  · exact fuf_fold_nodup sz l [] [] (by simp)

/-- C1 witness: three records share fingerprint 1 with sizes 2, 4, 4; the
kept record is the first of the two size-4 arrivals. -/
theorem claim1_witness :
    (1 ∈ ([⟨1, "aa", "x"⟩, ⟨1, "bbbb", "y"⟩, ⟨1, "cccc", "z"⟩] : List ImageInfo).map
        ImageInfo.hash) ∧
    ((∃ r l1 l2,
      lookupA (filterUniqueFiles (fun s => (s.length : Int))
          ([⟨1, "aa", "x"⟩, ⟨1, "bbbb", "y"⟩, ⟨1, "cccc", "z"⟩] : List ImageInfo)) 1 = some r ∧
      ([⟨1, "aa", "x"⟩, ⟨1, "bbbb", "y"⟩, ⟨1, "cccc", "z"⟩] : List ImageInfo).filter
          (fun x => x.hash == 1) = l1 ++ r :: l2 ∧
      (∀ x ∈ l1, (x.filename.length : Int) < (r.filename.length : Int)) ∧
      (∀ x ∈ l2, (x.filename.length : Int) ≤ (r.filename.length : Int))) ∧
    ((filterUniqueFiles (fun s => (s.length : Int))
        ([⟨1, "aa", "x"⟩, ⟨1, "bbbb", "y"⟩, ⟨1, "cccc", "z"⟩] : List ImageInfo)).map
        Prod.fst).Nodup) :=
  ⟨by decide, claim1_reducer_keeps_largest (fun s => (s.length : Int)) _ 1 (by decide)⟩

/-- C3 counterexample: a raw and a video file whose date resolution fails in
all three tiers (and whose fallback stat fails) are NOT excluded: a record is
still pushed, with the zero-value empty `isoDate`. -/
theorem claim3_counterexample :
    processRawFile noDateWorld "x.nef" = some ⟨7, "x.nef", ""⟩ ∧
    processVideoFile noDateWorld "clip.mp4" = some ⟨7, "clip.mp4", ""⟩ := by
  constructor <;> rfl

/-- C3 (amended): for a raw/video file whose size stat succeeds but whose
date resolution fails totally (EXIF, filename pattern and both modification
time stats), the code logs and then still pushes a `FileRecord`, with the
empty string as its `isoDate`; the file is not excluded from processing. -/
theorem claim3_amended_record_pushed (w : World) (p : String) (n : Int)
    (hsize : w.statSize p = some n) (hexif : w.exifDate p = none)
    (hfn : DateUtil.extractDateFromFilename (goBase p) = none)
    (hmod : w.modTime p = none) :
    processRawFile w p = some ⟨u64ofInt n, p, ""⟩ ∧
    processVideoFile w p = some ⟨u64ofInt n, p, ""⟩ := by
  have hed : DateUtil.ExtractDate w p (goBase p) = none := by
    simp [DateUtil.ExtractDate, DateUtil.extractExifDate, DateUtil.extractFileModTime,
      hexif, hfn, hmod]
  constructor
  · simp [processRawFile, hsize, hed, extractFileCreationDate, hmod]
  · simp [processVideoFile, hsize, hed, extractFileCreationDate, hmod]

/-- C3 witness: the amended statement at a concrete world and file. -/
theorem claim3_witness :
    noDateWorld.statSize "clip.mp4" = some 7 ∧
    processRawFile noDateWorld "clip.mp4" = some ⟨u64ofInt 7, "clip.mp4", ""⟩ :=
  ⟨rfl, (claim3_amended_record_pushed noDateWorld "clip.mp4" 7 rfl rfl (by decide) rfl).1⟩

/-- C7: ledger merging is additive: a successful `writeIndexJSON` on content
`M` with a new entry `{k: v}` succeeds and leaves the right-biased union —
`k` maps to `v` and every other key keeps its prior value, so no prior key is
dropped; and writing `{a: "001.jpg"}` then `{b: "002.jpg"}` to the same
directory's (initially absent) ledger yields a ledger containing both. -/
theorem claim7_ledger_additive (m : List (String × String)) (k v x : String) :
    ((writeIndexJSON true (.json m) [(k, v)]).2 = false ∧
      (writeIndexJSON true (.json m) [(k, v)]).1 = .json (setA m k v) ∧
      lookupA (setA m k v) x = if k = x then some v else lookupA m x) ∧
    ((writeIndexJSON true ((writeIndexJSON true .missing [("a", "001.jpg")]).1)
        [("b", "002.jpg")]).1
      = .json [("a", "001.jpg"), ("b", "002.jpg")] ∧
      lookupA [("a", "001.jpg"), ("b", "002.jpg")] "a" = some "001.jpg" ∧
      lookupA [("a", "001.jpg"), ("b", "002.jpg")] "b" = some "002.jpg") := by
  refine ⟨⟨?_, ?_, ?_⟩, ?_, ?_, ?_⟩
  · rfl
  · simp [writeIndexJSON, decodeContent, mergeA]
  · exact lookupA_setA m k x v
  · rfl
  · rfl
  · rfl

/-- C10: when the pre-existing `index.json` holds invalid JSON (a decode
error other than end-of-file), `writeIndexJSON` returns the error and the
content is left unchanged — the truncate-and-rewrite step is never reached,
so a corrupt ledger is not overwritten. -/
theorem claim10_corrupt_ledger_preserved (mapping : List (String × String)) :
    writeIndexJSON true .corrupt mapping = (.corrupt, true) := rfl

/-- C8: for raw-class and video-class files that are successfully
fingerprinted, the fingerprint is the byte size reinterpreted as `uint64`,
so equal sizes give equal fingerprints regardless of content. -/
theorem claim8_size_fingerprint (w : World) (p q : String) (n m : Int)
    (hp : w.statSize p = some n) (hq : w.statSize q = some m) :
    (processRawFile w p).map ImageInfo.hash = some (u64ofInt n) ∧
    (processVideoFile w q).map ImageInfo.hash = some (u64ofInt m) ∧
    (n = m → (processRawFile w p).map ImageInfo.hash
      = (processVideoFile w q).map ImageInfo.hash) := by
  refine ⟨?_, ?_, ?_⟩
  · simp [processRawFile, hp]
  · simp [processVideoFile, hq]
  · intro hnm
    simp [processRawFile, processVideoFile, hp, hq, hnm]

/-- C8 witness: two different files of equal size 7 share the fingerprint. -/
theorem claim8_witness :
    (processRawFile noDateWorld "x.nef").map ImageInfo.hash = some (u64ofInt 7) ∧
    (processVideoFile noDateWorld "clip.mp4").map ImageInfo.hash = some (u64ofInt 7) ∧
    (processRawFile noDateWorld "x.nef").map ImageInfo.hash
      = (processVideoFile noDateWorld "clip.mp4").map ImageInfo.hash := by
  have h := claim8_size_fingerprint noDateWorld "x.nef" "clip.mp4" 7 7 rfl rfl
  exact ⟨h.1, h.2.1, h.2.2 rfl⟩

end ImageDup

namespace ImageDup

theorem mediaClass_beq_iff (a b : MediaClass) : (a == b) = true ↔ a = b := by
  cases a <;> cases b <;> decide

theorem placeOne_copiedOf (w : World) (destDir : String) (st : PlaceState) (r : ImageInfo)
    (c : MediaClass) :
    copiedOf c (placeOne w destDir st r)
      ≤ copiedOf c st + (if classify r.filename == c then 1 else 0) := by
  simp only [placeOne]
  split
  · exact Nat.le_add_right _ _
  · split
    · exact Nat.le_add_right _ _
    · split
      · cases c <;> simp [copiedOf] <;> exact Nat.le_add_right _ _
      · split
        · cases c <;> simp [copiedOf] <;> exact Nat.le_add_right _ _
        · split <;> rename_i heq <;> cases c <;>
            simp [copiedOf, heq, mediaClass_beq_iff] <;> omega

theorem foldl_placeOne_copiedOf (w : World) (destDir : String) (entries : List ImageInfo)
    (c : MediaClass) :
    ∀ st, copiedOf c (entries.foldl (placeOne w destDir) st)
      ≤ copiedOf c st + entries.countP (fun r => classify r.filename == c) := by
  induction entries with
  | nil => intro st; simp
  | cons r rest ih =>
    intro st
    rw [List.foldl_cons]
    calc copiedOf c (rest.foldl (placeOne w destDir) (placeOne w destDir st r))
        ≤ copiedOf c (placeOne w destDir st r)
          + rest.countP (fun r => classify r.filename == c) := ih _
      _ ≤ copiedOf c st + (if classify r.filename == c then 1 else 0)
          + rest.countP (fun r => classify r.filename == c) := by
            have := placeOne_copiedOf w destDir st r c
            omega
      _ = copiedOf c st + (r :: rest).countP (fun r => classify r.filename == c) := by
            rw [List.countP_cons]
            by_cases hc : (classify r.filename == c) = true <;> simp [hc] <;> omega

theorem setA_values_le [DecidableEq κ] (u : List (κ × α)) (k : κ) (v : α) :
    ((setA u k v).map Prod.snd : Multiset α) ≤ v ::ₘ (u.map Prod.snd : Multiset α) := by
  induction u with
  | nil => simp [setA]
  | cons p rest ih =>
    obtain ⟨k0, v0⟩ := p
    by_cases hk : k0 = k
    · subst hk
      simp only [setA, if_pos rfl, List.map_cons]
      have h1 : (v ::ₘ (rest.map Prod.snd : Multiset α))
          ≤ v ::ₘ v0 ::ₘ (rest.map Prod.snd : Multiset α) :=
        Multiset.cons_le_cons v (Multiset.le_cons_self _ _)
      simpa using h1
    · simp only [setA, if_neg hk, List.map_cons]
      have h1 : (v0 ::ₘ ((setA rest k v).map Prod.snd : Multiset α))
          ≤ v0 ::ₘ v ::ₘ (rest.map Prod.snd : Multiset α) :=
        Multiset.cons_le_cons v0 ih
      have h2 : (v0 ::ₘ v ::ₘ (rest.map Prod.snd : Multiset α))
          = v ::ₘ v0 ::ₘ (rest.map Prod.snd : Multiset α) := Multiset.cons_swap v0 v _
      calc ((((k0, v0) :: setA rest k v).map Prod.snd : List α) : Multiset α)
          = v0 ::ₘ ((setA rest k v).map Prod.snd : Multiset α) := by simp
        _ ≤ v0 ::ₘ v ::ₘ (rest.map Prod.snd : Multiset α) := h1
        _ = v ::ₘ v0 ::ₘ (rest.map Prod.snd : Multiset α) := h2
        _ = v ::ₘ (((k0, v0) :: rest).map Prod.snd : Multiset α) := by simp

theorem fufStep_values_le (sz : String → Int) (u : List (Nat × ImageInfo))
    (s : List (Nat × Int)) (x : ImageInfo) :
    (((fufStep sz (u, s) x).1.map Prod.snd : List ImageInfo) : Multiset ImageInfo)
      ≤ x ::ₘ ((u.map Prod.snd : List ImageInfo) : Multiset ImageInfo) := by
  unfold fufStep
  by_cases hc : lookupA u x.hash = none ∨ (lookupA s x.hash).getD 0 < sz x.filename
  · simp only [hc, if_pos]
    exact setA_values_le u x.hash x
  · simp only [hc, if_neg, not_false_iff]
    exact Multiset.le_cons_self _ _

theorem fuf_fold_values_le (sz : String → Int) (l : List ImageInfo) :
    ∀ u s,
      (((l.foldl (fufStep sz) (u, s)).1.map Prod.snd : List ImageInfo) : Multiset ImageInfo)
        ≤ ((u.map Prod.snd : List ImageInfo) : Multiset ImageInfo) + (l : Multiset ImageInfo) := by
  induction l with
  | nil => intro u s; simp
  | cons x rest ih =>
    intro u s
    rw [List.foldl_cons]
    calc (((rest.foldl (fufStep sz) (fufStep sz (u, s) x)).1.map Prod.snd : List ImageInfo)
            : Multiset ImageInfo)
        ≤ (((fufStep sz (u, s) x).1.map Prod.snd : List ImageInfo) : Multiset ImageInfo)
            + (rest : Multiset ImageInfo) := by
          have := ih (fufStep sz (u, s) x).1 (fufStep sz (u, s) x).2
          simpa using this
      _ ≤ (x ::ₘ ((u.map Prod.snd : List ImageInfo) : Multiset ImageInfo))
            + (rest : Multiset ImageInfo) :=
          add_le_add_right (fufStep_values_le sz u s x) _
      _ = ((u.map Prod.snd : List ImageInfo) : Multiset ImageInfo)
            + ((x :: rest : List ImageInfo) : Multiset ImageInfo) := by
          rw [Multiset.cons_add, ← Multiset.cons_coe, Multiset.add_cons]

theorem fuf_countP_le (sz : String → Int) (l : List ImageInfo) (p : ImageInfo → Bool) :
    ((filterUniqueFiles sz l).map Prod.snd).countP p ≤ l.countP p := by
  have h := fuf_fold_values_le sz l [] []
  simp only [List.map_nil] at h
  have h2 : (((filterUniqueFiles sz l).map Prod.snd : List ImageInfo) : Multiset ImageInfo)
      ≤ (l : Multiset ImageInfo) := by
    simpa [filterUniqueFiles] using h
  exact (Multiset.coe_le.mp h2).countP_le p

theorem processImageFile_filename (w : World) (f : String) (r : ImageInfo)
    (hr : processImageFile w f = some r) : r.filename = f := by
  simp only [processImageFile] at hr
  split at hr
  · cases hr
  · split at hr
    · cases hr
    · cases hr
      rfl

theorem processRawFile_filename (w : World) (f : String) (r : ImageInfo)
    (hr : processRawFile w f = some r) : r.filename = f := by
  simp only [processRawFile] at hr
  split at hr
  · cases hr
  · cases hr
    rfl

theorem processVideoFile_filename (w : World) (f : String) (r : ImageInfo)
    (hr : processVideoFile w f = some r) : r.filename = f := by
  simp only [processVideoFile] at hr
  split at hr
  · cases hr
  · cases hr
    rfl

theorem runRecords_countP_le (w : World) (files : List String) (c : MediaClass) :
    (runRecords w files).countP (fun r => classify r.filename == c)
      ≤ files.countP (fun f => classify f == c) := by
  induction files with
  | nil => simp [runRecords]
  | cons f fs ih =>
    have hname : ∀ r, (match classify f with
        | MediaClass.image => processImageFile w f
        | MediaClass.raw => processRawFile w f
        | MediaClass.video => processVideoFile w f
        | MediaClass.unsupported => none) = some r → r.filename = f := by
      intro r hr
      cases hcl : classify f <;> rw [hcl] at hr
      · exact processImageFile_filename w f r hr
      · exact processRawFile_filename w f r hr
      · exact processVideoFile_filename w f r hr
      · cases hr
    cases hg : (match classify f with
        | MediaClass.image => processImageFile w f
        | MediaClass.raw => processRawFile w f
        | MediaClass.video => processVideoFile w f
        | MediaClass.unsupported => none) with
    | none =>
      have hrec : runRecords w (f :: fs) = runRecords w fs := by
        simp [runRecords, List.filterMap_cons, hg]
      rw [hrec, List.countP_cons]
      have := ih
      omega
    | some r =>
      have hrec : runRecords w (f :: fs) = r :: runRecords w fs := by
        simp [runRecords, List.filterMap_cons, hg]
      rw [hrec, List.countP_cons, List.countP_cons]
      have hrf : r.filename = f := hname r hg
      rw [hrf]
      have := ih
      omega

theorem seenCount_eq_countP (c : MediaClass) (files : List String) :
    seenCount c files = files.countP (fun f => classify f == c) := by
  rw [seenCount, List.countP_eq_length_filter]

theorem goSub64_eq (a b : Nat) (hb : b ≤ a) (ha : a < 2 ^ 64) : goSub64 a b = a - b := by
  unfold goSub64
  have hb' : b < 2 ^ 64 := lt_of_le_of_lt hb ha
  rw [Nat.mod_eq_of_lt ha, Nat.mod_eq_of_lt hb']
  have h1 : a + 2 ^ 64 - b = (a - b) + 2 ^ 64 := by omega
  rw [h1, Nat.add_mod_right, Nat.mod_eq_of_lt (by omega)]

theorem copied_le_seen (w : World) (destDir : String) (files : List String) (c : MediaClass) :
    copiedOf c (ProcessFiles w destDir files).2 ≤ seenCount c files := by
  simp only [ProcessFiles]
  calc copiedOf c (runPlacement w destDir
        ((filterUniqueFiles (fun f => (w.statSize f).getD 0) (runRecords w files)).map Prod.snd))
      ≤ copiedOf c initPlaceState
        + ((filterUniqueFiles (fun f => (w.statSize f).getD 0) (runRecords w files)).map
            Prod.snd).countP (fun r => classify r.filename == c) :=
        foldl_placeOne_copiedOf w destDir _ c initPlaceState
    _ = ((filterUniqueFiles (fun f => (w.statSize f).getD 0) (runRecords w files)).map
            Prod.snd).countP (fun r => classify r.filename == c) := by
        cases c <;> simp [copiedOf, initPlaceState]
    _ ≤ (runRecords w files).countP (fun r => classify r.filename == c) :=
        fuf_countP_le _ _ _
    _ ≤ files.countP (fun f => classify f == c) := runRecords_countP_le w files c
    _ = seenCount c files := (seenCount_eq_countP c files).symm

end ImageDup

namespace ImageDup

theorem seenCount_le_length (c : MediaClass) (files : List String) :
    seenCount c files ≤ files.length := by
  rw [seenCount]
  exact List.length_filter_le _ _

/-- C5: for every run over every input file list (including the empty one)
and each media class, the final summary satisfies
`duplicates = seen - copied` with `copied ≤ seen`; the `uint64` subtraction
cannot underflow. -/
theorem claim5_counter_invariant (w : World) (destDir : String) (files : List String)
    (hlen : files.length < 2 ^ 64) :
    ((ProcessFiles w destDir files).1.imageCopied ≤ (ProcessFiles w destDir files).1.imageCount ∧
      (ProcessFiles w destDir files).1.imageDuplicates
        = (ProcessFiles w destDir files).1.imageCount
          - (ProcessFiles w destDir files).1.imageCopied) ∧
    ((ProcessFiles w destDir files).1.rawCopied ≤ (ProcessFiles w destDir files).1.rawCount ∧
      (ProcessFiles w destDir files).1.rawDuplicates
        = (ProcessFiles w destDir files).1.rawCount
          - (ProcessFiles w destDir files).1.rawCopied) ∧
    ((ProcessFiles w destDir files).1.videoCopied ≤ (ProcessFiles w destDir files).1.videoCount ∧
      (ProcessFiles w destDir files).1.videoDuplicates
        = (ProcessFiles w destDir files).1.videoCount
          - (ProcessFiles w destDir files).1.videoCopied) := by
  have hi := copied_le_seen w destDir files .image
  have hr := copied_le_seen w destDir files .raw
  have hv := copied_le_seen w destDir files .video
  have hib : seenCount .image files < 2 ^ 64 :=
    lt_of_le_of_lt (seenCount_le_length _ _) hlen
  have hrb : seenCount .raw files < 2 ^ 64 :=
    lt_of_le_of_lt (seenCount_le_length _ _) hlen
  have hvb : seenCount .video files < 2 ^ 64 :=
    lt_of_le_of_lt (seenCount_le_length _ _) hlen
  simp only [ProcessFiles] at hi hr hv ⊢
  simp only [copiedOf] at hi hr hv
  exact ⟨⟨hi, goSub64_eq _ _ hi hib⟩, ⟨hr, goSub64_eq _ _ hr hrb⟩, ⟨hv, goSub64_eq _ _ hv hvb⟩⟩

/-- C5 witness: a concrete one-file run. -/
theorem claim5_witness :
    (["a.mp4"] : List String).length < 2 ^ 64 ∧
    ((ProcessFiles noDateWorld "out" ["a.mp4"]).1.videoCopied
      ≤ (ProcessFiles noDateWorld "out" ["a.mp4"]).1.videoCount ∧
    (ProcessFiles noDateWorld "out" ["a.mp4"]).1.videoDuplicates
      = (ProcessFiles noDateWorld "out" ["a.mp4"]).1.videoCount
        - (ProcessFiles noDateWorld "out" ["a.mp4"]).1.videoCopied) :=
  ⟨by norm_num, (claim5_counter_invariant noDateWorld "out" ["a.mp4"] (by norm_num)).2.2⟩

theorem placeOne_copies_shape (w : World) (destDir : String) (st : PlaceState) (r : ImageInfo)
    (h : ∀ cp ∈ st.copies, cp.name = pad3 cp.num ++ goExt cp.src) :
    ∀ cp ∈ (placeOne w destDir st r).copies, cp.name = pad3 cp.num ++ goExt cp.src := by
  intro cp hcp
  simp only [placeOne] at hcp
  split at hcp
  · exact h cp hcp
  · split at hcp
    · exact h cp hcp
    · split at hcp
      · exact h cp hcp
      · split at hcp
        · simp only [List.mem_append, List.mem_singleton] at hcp
          rcases hcp with hcp | hcp
          · exact h cp hcp
          · subst hcp; rfl
        · split at hcp <;>
          · simp only [List.mem_append, List.mem_singleton] at hcp
            rcases hcp with hcp | hcp
            · exact h cp hcp
            · subst hcp; rfl

theorem foldl_placeOne_copies_shape (w : World) (destDir : String)
    (entries : List ImageInfo) :
    ∀ st, (∀ cp ∈ st.copies, cp.name = pad3 cp.num ++ goExt cp.src) →
      ∀ cp ∈ (entries.foldl (placeOne w destDir) st).copies,
        cp.name = pad3 cp.num ++ goExt cp.src := by
  induction entries with
  | nil => intro st h; exact h
  | cons r rest ih =>
    intro st h
    rw [List.foldl_cons]
    exact ih (placeOne w destDir st r) (placeOne_copies_shape w destDir st r h)

/-- C9: every file placed by a run carries the source file's extension
verbatim as returned by `filepath.Ext` — the allocated name is exactly the
`%03d` counter followed by the unlowered extension (class determination used
`toLowerAscii`, the destination name does not). -/
theorem claim9_extension_verbatim (w : World) (destDir : String) (files : List String)
    (cp : Copy) (hcp : cp ∈ (ProcessFiles w destDir files).2.copies) :
    cp.name = pad3 cp.num ++ goExt cp.src := by
  simp only [ProcessFiles] at hcp
  exact foldl_placeOne_copies_shape w destDir _ initPlaceState (by simp [initPlaceState]) cp hcp

/-- C9 witness: a run placing `photo.JPG` (classified via the lowercased
`.jpg`) allocates the name `001.JPG`, preserving the original case. -/
theorem claim9_witness :
    ((⟨"2021-06-01", "out/2021-06-01", 1, "001.JPG", "photo.JPG"⟩ : Copy)
        ∈ (ProcessFiles allOkWorld "out" ["photo.JPG"]).2.copies) ∧
    ("001.JPG" : String) = pad3 1 ++ goExt "photo.JPG" :=
  ⟨by decide, claim9_extension_verbatim allOkWorld "out" ["photo.JPG"]
    ⟨"2021-06-01", "out/2021-06-01", 1, "001.JPG", "photo.JPG"⟩ (by decide)⟩

end ImageDup

namespace ImageDup

theorem copies_append_consecutive (st : PlaceState) (r : ImageInfo)
    (hinv : ∀ d, copiesIn d st = List.range' 1 ((lookupA st.dateCounters d).getD 0))
    (d dir0 name0 src0 : String) :
    ((st.copies ++ [(⟨r.isoDate, dir0,
        (lookupA st.dateCounters r.isoDate).getD 0 + 1, name0, src0⟩ : Copy)]).filter
          (fun cp => cp.dateStr == d)).map Copy.num
      = List.range' 1 ((lookupA (setA st.dateCounters r.isoDate
          ((lookupA st.dateCounters r.isoDate).getD 0 + 1)) d).getD 0) := by
  rw [List.filter_append, List.map_append, lookupA_setA]
  by_cases hd : r.isoDate = d
  · subst hd
    rw [if_pos rfl]
    have hone : (([⟨r.isoDate, dir0, (lookupA st.dateCounters r.isoDate).getD 0 + 1,
          name0, src0⟩] : List Copy).filter
            (fun cp => cp.dateStr == r.isoDate)).map Copy.num
        = [(lookupA st.dateCounters r.isoDate).getD 0 + 1] := by
      simp
    rw [hone]
    have hmain := hinv r.isoDate
    simp only [copiesIn] at hmain
    rw [hmain, Option.getD_some, List.range'_1_concat]
    congr 1
    simp [Nat.add_comm]
  · rw [if_neg hd]
    have hzero : (([⟨r.isoDate, dir0, (lookupA st.dateCounters r.isoDate).getD 0 + 1,
          name0, src0⟩] : List Copy).filter
            (fun cp => cp.dateStr == d)).map Copy.num = [] := by
      simp [hd]
    rw [hzero, List.append_nil]
    have hmain := hinv d
    simp only [copiesIn] at hmain
    exact hmain

theorem placeOne_consecutive (w : World) (destDir : String) (st : PlaceState) (r : ImageInfo)
    (hcopy : ∀ f, w.copyOk f = true)
    (hinv : ∀ d, copiesIn d st = List.range' 1 ((lookupA st.dateCounters d).getD 0)) :
    ∀ d, copiesIn d (placeOne w destDir st r)
      = List.range' 1 ((lookupA (placeOne w destDir st r).dateCounters d).getD 0) := by
  intro d
  simp only [placeOne]
  split
  · exact hinv d
  · split
    · exact hinv d
    · split
      · rename_i hfail
        rw [hcopy] at hfail
        cases hfail
      · split
        · simpa [copiesIn] using copies_append_consecutive st r hinv d _ _ _
        · split <;> simpa [copiesIn] using copies_append_consecutive st r hinv d _ _ _

theorem foldl_placeOne_consecutive (w : World) (destDir : String)
    (entries : List ImageInfo) (hcopy : ∀ f, w.copyOk f = true) :
    ∀ st, (∀ d, copiesIn d st = List.range' 1 ((lookupA st.dateCounters d).getD 0)) →
      ∀ d, copiesIn d (entries.foldl (placeOne w destDir) st)
        = List.range' 1
            ((lookupA (entries.foldl (placeOne w destDir) st).dateCounters d).getD 0) := by
  induction entries with
  | nil => intro st h; exact h
  | cons r rest ih =>
    intro st h
    rw [List.foldl_cons]
    exact ih (placeOne w destDir st r) (placeOne_consecutive w destDir st r hcopy h)

/-- C6 counterexample: two records with the same date where the first copy
fails — the only file placed in the date directory is `002.mp4` (not a
consecutive sequence starting at `001`) and the counter stands at 2 after
only one successfully placed file, so the counter does not increment "once
per successfully-placed file". -/
theorem claim6_counterexample :
    ((ProcessFiles copyFailWorld "out" ["a.mp4", "b.mp4"]).2.copies.map Copy.name
      = ["002.mp4"]) ∧
    lookupA (ProcessFiles copyFailWorld "out" ["a.mp4", "b.mp4"]).2.dateCounters "2021-06-01"
      = some 2 ∧
    copiesIn "2021-06-01" (ProcessFiles copyFailWorld "out" ["a.mp4", "b.mp4"]).2
      ≠ [1] := by
  refine ⟨by decide, by decide, by decide⟩

/-- C6 (amended): destination numbers come from a per-date-directory counter
starting at 001 (`%03d` + original extension), but the counter increments
once per record that reaches the allocation step — after directory creation
and relative-path computation succeed — even if the subsequent copy or
ledger write fails, so gaps are possible; when every copy succeeds, the
numbers placed into each date directory during the run are exactly the
consecutive values 1, 2, ..., counter. -/
theorem claim6_amended_consecutive (w : World) (destDir : String) (files : List String)
    (hcopy : ∀ f, w.copyOk f = true) (d : String) :
    copiesIn d (ProcessFiles w destDir files).2
      = List.range' 1 ((lookupA (ProcessFiles w destDir files).2.dateCounters d).getD 0) := by
  simp only [ProcessFiles]
  exact foldl_placeOne_consecutive w destDir _ hcopy initPlaceState
    (by intro d0; simp [copiesIn, initPlaceState, lookupA]) d

/-- C6 witness: a successful one-file run places exactly `[1]` in its date
directory, matching the final counter. -/
theorem claim6_witness :
    (∀ f, allOkWorld.copyOk f = true) ∧
    copiesIn "2021-06-01" (ProcessFiles allOkWorld "out" ["photo.JPG"]).2
      = List.range' 1
          ((lookupA (ProcessFiles allOkWorld "out" ["photo.JPG"]).2.dateCounters
            "2021-06-01").getD 0) :=
  ⟨fun _ => rfl,
    claim6_amended_consecutive allOkWorld "out" ["photo.JPG"] (fun _ => rfl) "2021-06-01"⟩

end ImageDup
